import Mathlib

/-!
Verification development for the obsidian-discord capture bot (`bot.py`).

The bot is shallowly embedded: Python strings are modelled as lists of
characters (`Str`), the regular-expression character classes used by the
source are modelled over the ASCII fragment, file contents are strings or
lists of lines, and the event handlers are modelled as pure functions from
an explicit environment (which records which external calls succeed) to the
list of performed effects together with an escaped-exception flag.
-/

namespace ObsidianDiscord

/-- Python strings are modelled as lists of unicode characters. -/
abbrev Str := List Char

/-! ## Character classes (ASCII fragment of Python's regex classes) -/

/-- Model of the regex class `\s` (Python whitespace, ASCII fragment). -/
def isSpaceChar (c : Char) : Bool :=
  c = ' ' || c = '\t' || c = '\n' || c = '\r' || c = '\x0b' || c = '\x0c'

/-- ASCII decimal digit, as matched by `\w`. -/
def isDigitChar (c : Char) : Bool := 48 ≤ c.toNat && c.toNat ≤ 57

/-- ASCII lower-case letter. -/
def isLowerAlpha (c : Char) : Bool := 97 ≤ c.toNat && c.toNat ≤ 122

/-- ASCII upper-case letter. -/
def isUpperAlpha (c : Char) : Bool := 65 ≤ c.toNat && c.toNat ≤ 90

/-- Model of the regex class `\w` (word character, ASCII fragment). -/
def isWordChar (c : Char) : Bool :=
  isLowerAlpha c || isUpperAlpha c || isDigitChar c || c = '_'

/-! ## slugify (bot.py lines 189-196)

    text = text.lower()
    text = re.sub(pattern1, empty, text)   -- drop chars outside w, s, hyphen
    text = re.sub(pattern2, hyphen, text).strip(hyphen)  -- collapse runs of s and hyphen
-/

/-- A character collapsed by the second substitution: hyphen or whitespace. -/
def isDashOrSpace (c : Char) : Bool := c = '-' || isSpaceChar c

/-- Helper for `collapseDashes`: the flag records whether the scanner is
inside a run of hyphen/whitespace characters that has already emitted its
single hyphen. -/
def collapseGo : Bool → Str → Str
  | _, [] => []
  | true, c :: cs =>
    if isDashOrSpace c then collapseGo true cs
    else c :: collapseGo false cs
  | false, c :: cs =>
    if isDashOrSpace c then '-' :: collapseGo true cs
    else c :: collapseGo false cs

/-- Replace every maximal run of hyphen/whitespace characters by a single
hyphen — the effect of the second regex substitution in `slugify`. -/
def collapseDashes (s : Str) : Str := collapseGo false s

/-- Python's `s.strip(ch)`: remove leading and trailing occurrences of `ch`. -/
def stripChar (ch : Char) (s : Str) : Str :=
  ((s.dropWhile (fun c => c = ch)).reverse.dropWhile (fun c => c = ch)).reverse

/-- Embedding of `slugify` from bot.py: lower-case, drop characters outside
word/whitespace/hyphen, collapse whitespace-or-hyphen runs to a single
hyphen, and strip leading/trailing hyphens. -/
def slugify (text : Str) : Str :=
  let lowered := text.map Char.toLower
  let filtered := lowered.filter (fun c => isWordChar c || isSpaceChar c || c = '-')
  stripChar '-' (collapseDashes filtered)

/-! ### Structure of `collapseDashes` output -/

/-- No two adjacent characters are both hyphen-or-whitespace. -/
def SeparatedDashes (l : Str) : Prop :=
  l.Chain' fun a b => ¬(isDashOrSpace a = true ∧ isDashOrSpace b = true)

/-! ## create_note path resolution (bot.py lines 207-229)

The vault directory is modelled as the list of existing file names.  The
Python loop
    counter = 1
    while file_path.exists():
        file_path = base_path / (base_name - counter ++ extension)
        counter += 1
is embedded with explicit fuel; `existing.length + 1` iterations always
suffice because the candidate names are pairwise distinct. -/

/-- The decimal digit character for `d` (`0 ≤ d ≤ 9`). -/
def digitChar (d : Nat) : Char := Char.ofNat (48 + d)

/-- Decimal representation of a natural number, written with explicit fuel
so that it is structurally recursive (the fuel is always sufficient). -/
def natReprAux : Nat → Nat → Str
  | _, 0 => []
  | n, fuel+1 =>
    if n < 10 then [digitChar n]
    else natReprAux (n / 10) fuel ++ [digitChar (n % 10)]

/-- Decimal representation of a natural number, as produced by Python
string interpolation of an int. -/
def natRepr (n : Nat) : Str := natReprAux n (n + 1)

/-- Decodes a decimal digit string; used to show `natRepr` is injective. -/
def reprVal (s : Str) : Nat := s.foldl (fun acc c => acc * 10 + (c.toNat - 48)) 0

/-- The `k`-th candidate file name tried by `create_note`: the plain name
first, then name-1, name-2, and so on. -/
def candidateName (base ext : Str) : Nat → Str
  | 0 => base ++ ext
  | k+1 => base ++ "-".data ++ natRepr (k + 1) ++ ext

/-- Embedding of the collision loop of `create_note`. -/
def create_note_loop (existing : List Str) (base ext : Str) :
    Nat → Nat → Str → Str
  | 0, _, path => path
  | fuel+1, counter, path =>
    if path ∈ existing then
      create_note_loop existing base ext fuel (counter + 1)
        (base ++ "-".data ++ natRepr counter ++ ext)
    else path

/-- Embedding of the path resolution of `create_note`: starting from
`base ++ ext`, bump the numeric suffix until the name is free. -/
def create_note_path (existing : List Str) (base ext : Str) : Str :=
  create_note_loop existing base ext (existing.length + 1) 1 (base ++ ext)

/-! ## append_to_daily_note (bot.py lines 134-187)

The file is modelled as a string; `pyReadlines` mirrors Python's
`readlines` (each line keeps its trailing newline) and `joinLines` mirrors
`writelines`.  The section scan is a direct translation of the loop in the
source, threading the `section_found`, `next_section_level` and index
state. -/

/-- Python's `s.strip()` with a custom character class. -/
def stripBy (p : Char → Bool) (s : Str) : Str :=
  ((s.dropWhile p).reverse.dropWhile p).reverse

/-- Python's `s.strip()` (whitespace on both ends). -/
def pyStrip (s : Str) : Str := stripBy isSpaceChar s

/-- First whitespace-delimited token of a string — `s.split()[0]` (empty
if the string has no token). -/
def firstToken (s : Str) : Str :=
  (s.dropWhile isSpaceChar).takeWhile (fun c => !isSpaceChar c)

/-- `line.strip().startswith(hash)` from the section scan. -/
def isHeaderLine (line : Str) : Bool :=
  match (pyStrip line).head? with
  | some c => c = '#'
  | none => false

/-- `len(current_header.split()[0])` — the header level as the source
counts it (length of the first token of the stripped line). -/
def lineLevel (line : Str) : Nat := (firstToken (pyStrip line)).length

/-- `current_header.lstrip(hash).strip()` — header text with the leading
hash marks and surrounding whitespace removed. -/
def deHashed (line : Str) : Str :=
  pyStrip ((pyStrip line).dropWhile (fun c => c = '#'))

/-- Does this line match the configured section header, as compared by the
source (`de-hashed text == DAILY_NOTE_SECTION.strip()`, only on lines that
start with a hash mark after stripping)? -/
def matchesSection (sec line : Str) : Bool :=
  isHeaderLine line && decide (deHashed line = pyStrip sec)

/-- The scanning loop of `append_to_daily_note`: returns the final
`section_found` flag and the break index (`none` means the loop ran to the
end, i.e. insert at end of file).  `found`, `lvl`, `i` thread the Python
variables `section_found`, `next_section_level` and the line index. -/
def scanLines (sec : Str) : List Str → Bool → Nat → Nat → Bool × Option Nat
  | [], found, _, _ => (found, none)
  | line :: rest, found, lvl, i =>
    if isHeaderLine line then
      if deHashed line = pyStrip sec then
        scanLines sec rest true (lineLevel line) (i + 1)
      else if found && decide (lineLevel line ≤ lvl) then (found, some i)
      else scanLines sec rest found lvl (i + 1)
    else scanLines sec rest found lvl (i + 1)

/-- The section-aware insertion of `append_to_daily_note`, at the level of
the line list read by `readlines`: find the insertion index, prefix the
block with a synthesized level-2 header when the section was not found,
and insert the block as a single list element. -/
def appendSectioned (sec : Str) (lines : List Str) (block : Str) : List Str :=
  let res := scanLines sec lines false 0 0
  let content := if res.1 then block
    else "\n## ".data ++ sec ++ "\n".data ++ block
  List.insertIdx (res.2.getD lines.length) content lines

/-- Python's `readlines`: split into lines, each keeping its newline. -/
def readlinesGo (acc : Str) : Str → List Str
  | [] => if acc.isEmpty then [] else [acc.reverse]
  | c :: cs =>
    if c = '\n' then ('\n' :: acc).reverse :: readlinesGo [] cs
    else readlinesGo (c :: acc) cs

/-- Python's `readlines` on a whole file. -/
def pyReadlines (s : Str) : List Str := readlinesGo [] s

/-- Python's `writelines`: concatenation of the lines. -/
def joinLines (ls : List Str) : Str := ls.foldr (fun a b => a ++ b) []

/-- Zero-padded two-digit decimal field, as produced by `strftime`. -/
def pad2 (n : Nat) : Str := if n < 10 then '0' :: natRepr n else natRepr n

/-- `datetime.now().strftime(percent-H colon percent-M)`. -/
def strftimeHM (h m : Nat) : Str := pad2 h ++ ":".data ++ pad2 m

/-- The formatted block written by `append_to_daily_note`:
newline, rule, header with the current time, blank line, content, newline. -/
def formattedContent (h m : Nat) (content : Str) : Str :=
  "\n---\n## ".data ++ strftimeHM h m ++ "\n\n".data ++ content ++ "\n".data

/-- Embedding of `append_to_daily_note`, returning the new file contents.
`sec?` models `DAILY_NOTE_SECTION` (`none` = unset; the empty string is
falsy in Python and also takes the simple-append path). -/
def append_to_daily_note (sec? : Option Str) (file : Str) (h m : Nat)
    (content : Str) : Str :=
  let block := formattedContent h m content
  match sec? with
  | none => file ++ block
  | some sec =>
    if sec = [] then file ++ block
    else joinLines (appendSectioned sec (pyReadlines file) block)

/-! ### Claim C2: the section-aware insertion point

Two declarative renderings of the insertion rule are compared with the
source's `appendSectioned`:

* `claimAppendSectioned` (via `claimScan`/`claimBoundary`) renders the
  claim verbatim — the header level is the count of leading hash marks,
  the anchor is the first matching section header, the insertion point is
  before the first later header line of level at most the anchor's (end
  of file if none), and a missing section falls back to end of file with
  a synthesized level-2 header.

* `specAppendSectioned` (via `specScan`/`specBoundary`) renders the
  amended claim — identical except that the header level is measured the
  way the source measures it (`lineLevel`, the length of the first
  whitespace-delimited token of the stripped line, which equals the hash
  count only when whitespace separates the hashes from the title).

The source deviates from the claim rendering both on files where several
lines match the section name (re-anchoring) and on headers without a
space after the hashes (level quirk). -/

/-- The count of leading hash marks of the stripped line — the header
level as the claim's words measure it. -/
def hashLevel (line : Str) : Nat :=
  ((pyStrip line).takeWhile (fun c => c = '#')).length

/-- Index and level of the first line matching the section header, with
the level measured as the count of leading hash marks — the original
claim's words. -/
def claimScan (sec : Str) : List Str → Option (Nat × Nat)
  | [] => none
  | l :: ls =>
    if matchesSection sec l then some (0, hashLevel l)
    else (claimScan sec ls).map (fun p => (p.1 + 1, p.2))

/-- Index of the first header line whose count of leading hash marks is at
most `lvl` — the original claim's words. -/
def claimBoundary (lvl : Nat) : List Str → Option Nat
  | [] => none
  | l :: ls =>
    if isHeaderLine l && decide (hashLevel l ≤ lvl) then some 0
    else (claimBoundary lvl ls).map (fun j => j + 1)

/-- The insertion behaviour asserted by claim C2, rendered from the
claim's words, for comparison with `appendSectioned`. -/
def claimAppendSectioned (sec : Str) (lines : List Str) (block : Str) :
    List Str :=
  match claimScan sec lines with
  | none => lines ++ ["\n## ".data ++ sec ++ "\n".data ++ block]
  | some (m, lvl) =>
    let idx := match claimBoundary lvl (lines.drop (m + 1)) with
      | none => lines.length
      | some j => m + 1 + j
    List.insertIdx idx block lines

/-- Index and level of the first line matching the section header, with
the level measured as the source measures it (`lineLevel`) — the amended
claim's words. -/
def specScan (sec : Str) : List Str → Option (Nat × Nat)
  | [] => none
  | l :: ls =>
    if matchesSection sec l then some (0, lineLevel l)
    else (specScan sec ls).map (fun p => (p.1 + 1, p.2))

/-- Index of the first header line of `lineLevel` at most `lvl` — the
amended claim's words. -/
def specBoundary (lvl : Nat) : List Str → Option Nat
  | [] => none
  | l :: ls =>
    if isHeaderLine l && decide (lineLevel l ≤ lvl) then some 0
    else (specBoundary lvl ls).map (fun j => j + 1)

/-- The insertion behaviour asserted by the amended claim C2, stated as a
function for comparison with `appendSectioned`. -/
def specAppendSectioned (sec : Str) (lines : List Str) (block : Str) :
    List Str :=
  match specScan sec lines with
  | none => lines ++ ["\n## ".data ++ sec ++ "\n".data ++ block]
  | some (m, lvl) =>
    let idx := match specBoundary lvl (lines.drop (m + 1)) with
      | none => lines.length
      | some j => m + 1 + j
    List.insertIdx idx block lines

/-! ## format_date_for_filename (bot.py lines 70-88)

Python's `str.replace` replaces all non-overlapping occurrences from left
to right; the function applies it once per table entry, in the table's
insertion order, each pass running on the previous pass's output. -/

/-- Python's `s.replace(pat, rep)` for a non-empty pattern, with explicit
fuel (`s.length` always suffices) so the definition is structural. -/
def replaceAllGo (pat rep : Str) : Nat → Str → Str
  | 0, s => s
  | _+1, [] => []
  | fuel+1, c :: cs =>
    if pat ≠ [] ∧ pat.isPrefixOf (c :: cs) then
      rep ++ replaceAllGo pat rep fuel ((c :: cs).drop pat.length)
    else c :: replaceAllGo pat rep fuel cs

/-- Python's `s.replace(pat, rep)`. -/
def replaceAll (pat rep s : Str) : Str := replaceAllGo pat rep s.length s

/-- The token table of `format_date_for_filename`, in dict insertion
order. -/
def format_map : List (Str × Str) :=
  [("YYYY".data, "%Y".data), ("YY".data, "%y".data), ("MM".data, "%m".data),
   ("DD".data, "%d".data), ("HH".data, "%H".data), ("mm".data, "%M".data),
   ("ss".data, "%S".data)]

/-- Embedding of `format_date_for_filename`: sequentially replace each
token by its strftime equivalent. -/
def format_date_for_filename (fmt : Str) : Str :=
  format_map.foldl (fun acc p => replaceAll p.1 p.2 acc) fmt

/-! ## Messages, reactions and the action catalog (bot.py lines 31-37,
207-239, 293-363)

Gateway objects are modelled structurally.  The event handlers are pure
functions from a configuration plus an environment — which fixes the
payload data and records which external calls succeed — to the list of
performed effects together with a flag telling whether an exception
escaped the handler. -/

structure Attachment where
  filename : Str
  url : Str
  deriving DecidableEq

structure Reaction where
  emoji : Str
  users : List Nat
  deriving DecidableEq

structure Message where
  content : Str
  attachments : List Attachment
  reactions : List Reaction
  deriving DecidableEq

/-- The static ACTION_EMOJIS table: calendar selects the daily note,
memo selects a new note. -/
def ACTION_EMOJIS : List (Str × Str) :=
  [("📅".data, "daily".data), ("📝".data, "note".data)]

/-- The reaction aggregation of `on_raw_reaction_add`: the emojis of the
reactions on the message that are catalog keys and whose user list
contains the triggering user. -/
def userReactions (catalog : List (Str × Str)) (msg : Message) (uid : Nat) :
    List Str :=
  (msg.reactions.filter fun r =>
    (catalog.any fun p => p.1 = r.emoji) && decide (uid ∈ r.users)).map
    fun r => r.emoji

/-- The action decision: create a new note exactly when the memo emoji is
among the triggering user's catalog reactions, otherwise the daily note. -/
def chooseAction (catalog : List (Str × Str)) (msg : Message) (uid : Nat) :
    Str :=
  if "📝".data ∈ userReactions catalog msg uid then "note".data
  else "daily".data

/-- One attachment link bullet, `- [filename](url)`. -/
def attachmentBullet (a : Attachment) : Str :=
  "- [".data ++ a.filename ++ "](".data ++ a.url ++ ")".data

/-- Python's `newline.join`. -/
def joinNewline : List Str → Str
  | [] => []
  | [x] => x
  | x :: xs => x ++ "\n".data ++ joinNewline xs

/-- `base_content` as formatted by `on_raw_reaction_add`: the message text,
then (when attachments exist) a blank line, the literal `Attachments:`
line and one bullet per attachment joined by newlines. -/
def dailyBaseContent (msg : Message) : Str :=
  if msg.attachments = [] then msg.content
  else msg.content ++ "\n\nAttachments:\n".data ++
    joinNewline (msg.attachments.map attachmentBullet)

/-- The note body written by `create_note`: the raw message text, then
(when attachments exist) a blank line, a level-2 `## Attachments` header
and one bullet line per attachment. -/
def createNoteContent (msg : Message) : Str :=
  msg.content ++
    (if msg.attachments = [] then []
     else "\n\n## Attachments\n".data ++
       (msg.attachments.map fun a => attachmentBullet a ++ "\n".data).foldr
         (fun a b => a ++ b) [])

/-! ## The event handlers (bot.py lines 293-363)

Externally visible actions are recorded as effects; each environment field
`...Ok` tells whether the corresponding external call succeeds or raises.
A handler returns the effects it performed and whether an exception
escaped it.  `on_raw_reaction_add` additionally reports whether the
capture logic was reached (the `try` block entered). -/

inductive Effect where
  | addReaction (emoji : Str)
  | removeReaction (emoji : Str)
  | setStatus (s : Str)
  | createdNote (content : Str)
  | wroteDaily (content : Str)
  deriving DecidableEq

/-- The startup configuration: bot user id, designated channel name, Save
trigger emoji name and the action catalog (the static table, possibly
extended at `on_ready` with the discovered Save entry). -/
structure Config where
  botUserId : Nat
  channelName : Str
  saveEmojiName : Str
  catalog : List (Str × Str)

/-- The catalog keys, in insertion order — `ACTION_EMOJIS.keys()`. -/
def catalogKeys (cfg : Config) : List Str := cfg.catalog.map Prod.fst

/-- Environment of one `on_raw_reaction_add` event. -/
structure RawEnv where
  payloadUserId : Nat
  channelName : Str
  emojiIsCustom : Bool
  emojiName : Str
  msg : Message
  fetchChannelOk : Bool
  fetchMessageOk : Bool
  usersFetchOk : Bool
  pathResolveOk : Bool
  writeOk : Bool
  statusOk : Bool
  addReactionOk : Str → Bool
  removeReactionOk : Str → Bool

/-- Result of one handler invocation. -/
structure HandlerResult where
  effects : List Effect
  escaped : Bool
  triggered : Bool
  deriving DecidableEq

/-- The reaction-removal loop shared by both terminal paths: removes the
catalog reactions in order until one call raises. -/
def removalLoop (ok : Str → Bool) : List Str → List Effect × Bool
  | [] => ([], false)
  | k :: ks =>
    if ok k then
      let r := removalLoop ok ks
      (Effect.removeReaction k :: r.1, r.2)
    else ([], true)

/-- The decision-and-write phase of the `try` block: set the busy status,
then create the note or resolve and append to the daily note.  Returns the
effects and whether an exception was raised. -/
def writePhase (cfg : Config) (env : RawEnv) : List Effect × Bool :=
  if chooseAction cfg.catalog env.msg env.payloadUserId = "note".data then
    if !env.statusOk then ([], true)
    else if !env.writeOk then ([Effect.setStatus ("creating".data)], true)
    else ([Effect.setStatus ("creating".data),
           Effect.createdNote (createNoteContent env.msg)], false)
  else
    if !env.statusOk then ([], true)
    else if !env.pathResolveOk then ([Effect.setStatus ("saving".data)], true)
    else if !env.writeOk then ([Effect.setStatus ("saving".data)], true)
    else ([Effect.setStatus ("saving".data),
           Effect.wroteDaily (dailyBaseContent env.msg)], false)

/-- The success tail of the `try` block: mark with the check emoji, reset
the status, remove the catalog reactions. -/
def successTail (cfg : Config) (env : RawEnv) (pre : List Effect) :
    List Effect × Bool :=
  if !env.addReactionOk ("✅".data) then (pre, true)
  else if !env.statusOk then (pre ++ [Effect.addReaction ("✅".data)], true)
  else (pre ++ [Effect.addReaction ("✅".data),
          Effect.setStatus ("default".data)] ++
        (removalLoop env.removeReactionOk (catalogKeys cfg)).1,
        (removalLoop env.removeReactionOk (catalogKeys cfg)).2)

/-- The body of the `try` block of `on_raw_reaction_add`: aggregate the
user's reactions, branch on the decision, write, then mark success and
clean up.  Returns the effects and whether an exception was raised. -/
def tryBody (cfg : Config) (env : RawEnv) : List Effect × Bool :=
  if !env.usersFetchOk then ([], true)
  else if (writePhase cfg env).2 then writePhase cfg env
  else successTail cfg env (writePhase cfg env).1

/-- The `except` handler: mark with the cross emoji, reset the status,
remove the catalog reactions.  An exception in one of these calls escapes
the handler. -/
def exceptTail (cfg : Config) (env : RawEnv) (pre : List Effect) :
    HandlerResult :=
  if !env.addReactionOk ("❌".data) then ⟨pre, true, true⟩
  else if !env.statusOk then ⟨pre ++ [Effect.addReaction ("❌".data)], true, true⟩
  else ⟨pre ++ [Effect.addReaction ("❌".data),
          Effect.setStatus ("default".data)] ++
        (removalLoop env.removeReactionOk (catalogKeys cfg)).1,
        (removalLoop env.removeReactionOk (catalogKeys cfg)).2, true⟩

/-- Embedding of `on_raw_reaction_add`: the guard chain (own reaction,
channel fetch, channel name, message fetch, custom Save emoji), then the
`try` block with its `except` handler.  Channel and message fetching
happen before the `try`, so their exceptions escape. -/
def on_raw_reaction_add (cfg : Config) (env : RawEnv) : HandlerResult :=
  if env.payloadUserId = cfg.botUserId then ⟨[], false, false⟩
  else if !env.fetchChannelOk then ⟨[], true, false⟩
  else if env.channelName ≠ cfg.channelName then ⟨[], false, false⟩
  else if !env.fetchMessageOk then ⟨[], true, false⟩
  else if !(env.emojiIsCustom && decide (env.emojiName = cfg.saveEmojiName)) then
    ⟨[], false, false⟩
  else if !(tryBody cfg env).2 then ⟨(tryBody cfg env).1, false, true⟩
  else exceptTail cfg env (tryBody cfg env).1

/-- Environment of one `on_message` event. -/
structure MsgEnv where
  channelName : Str
  authorIsBot : Bool
  addReactionOk : Str → Bool

/-- The reaction-attachment loop of `on_message`. -/
def addLoop (ok : Str → Bool) : List Str → List Effect × Bool
  | [] => ([], false)
  | k :: ks =>
    if ok k then
      let r := addLoop ok ks
      (Effect.addReaction k :: r.1, r.2)
    else ([], true)

/-- Embedding of `on_message`: in the designated channel, for a non-bot
author, attach every catalog emoji in order. -/
def on_message (cfg : Config) (env : MsgEnv) : List Effect × Bool :=
  if env.channelName = cfg.channelName ∧ env.authorIsBot = false then
    addLoop env.addReactionOk (catalogKeys cfg)
  else ([], false)

/-! ### Concrete test fixtures -/

def testMessage : Message :=
  ⟨"# Trip Plan\nPack bags".data, [], [⟨"📝".data, [7]⟩, ⟨"📅".data, [3]⟩]⟩

def testConfig : Config :=
  ⟨999, "obsidian".data, "obsidian_save".data, ACTION_EMOJIS⟩

def allOkRawEnv : RawEnv :=
  ⟨7, "obsidian".data, true, "obsidian_save".data, testMessage,
   true, true, true, true, true, true, fun _ => true, fun _ => true⟩

def fetchFailRawEnv : RawEnv :=
  ⟨7, "obsidian".data, true, "obsidian_save".data, testMessage,
   false, true, true, true, true, true, fun _ => true, fun _ => true⟩

/-! ## Theorems -/

example : slugify ("  Hello,  World--Again!  ".data) = "hello-world-again".data := by decide

example : slugify ("Trip Plan".data) = "trip-plan".data := by decide

/-! ### Character-level lemmas -/

theorem nat_isValidChar_of_small {n : Nat} (h : n < 0xd800) : n.isValidChar :=
  Or.inl h

theorem char_toNat_ofNat {n : Nat} (h : n.isValidChar) : (Char.ofNat n).toNat = n := by
  simp only [Char.ofNat, dif_pos h, Char.ofNatAux, Char.toNat]
  rfl

theorem isUpperAlpha_iff {c : Char} : isUpperAlpha c = true ↔ 65 ≤ c.toNat ∧ c.toNat ≤ 90 := by
  simp [isUpperAlpha]

theorem toLower_eq_self {c : Char} (h : isUpperAlpha c = false) : c.toLower = c := by
  have h' : ¬(65 ≤ c.toNat ∧ c.toNat ≤ 90) := by
    intro hc
    rw [isUpperAlpha_iff.mpr hc] at h
    exact absurd h (by simp)
  simp only [Char.toLower]
  rw [if_neg]
  intro hc
  exact h' ⟨hc.1, hc.2⟩

theorem isUpperAlpha_toLower (c : Char) : isUpperAlpha c.toLower = false := by
  by_cases h : 65 ≤ c.toNat ∧ c.toNat ≤ 90
  · have hval : (c.toNat + 32).isValidChar := nat_isValidChar_of_small (by omega)
    have : c.toLower = Char.ofNat (c.toNat + 32) := by
      simp only [Char.toLower]
      rw [if_pos]
      exact ⟨h.1, h.2⟩
    rw [this]
    rw [Bool.eq_false_iff]
    intro hu
    have := isUpperAlpha_iff.mp hu
    rw [char_toNat_ofNat hval] at this
    omega
  · have hne : isUpperAlpha c = false := by
      rw [Bool.eq_false_iff]
      intro hu
      exact h (isUpperAlpha_iff.mp hu)
    rw [toLower_eq_self hne]
    exact hne

theorem isWordChar_toLower {c : Char} (h : isWordChar c = true) :
    isWordChar c.toLower = true := by
  by_cases hu : 65 ≤ c.toNat ∧ c.toNat ≤ 90
  · have hval : (c.toNat + 32).isValidChar := nat_isValidChar_of_small (by omega)
    have hlo : c.toLower = Char.ofNat (c.toNat + 32) := by
      simp only [Char.toLower]
      rw [if_pos]
      exact ⟨hu.1, hu.2⟩
    rw [hlo]
    have : isLowerAlpha (Char.ofNat (c.toNat + 32)) = true := by
      simp only [isLowerAlpha, char_toNat_ofNat hval]
      rw [Bool.and_eq_true]
      constructor <;> [skip; skip] <;> simp only [decide_eq_true_eq] <;> omega
    simp [isWordChar, this]
  · have hne : isUpperAlpha c = false := by
      rw [Bool.eq_false_iff]
      intro h'
      exact hu (isUpperAlpha_iff.mp h')
    rw [toLower_eq_self hne]
    exact h

theorem isSpaceChar_not_word {c : Char} (h : isWordChar c = true) :
    isSpaceChar c = false := by
  rw [Bool.eq_false_iff]
  intro hs
  simp only [isSpaceChar, Bool.or_eq_true, decide_eq_true_eq] at hs
  rcases hs with ((((h1 | h1) | h1) | h1) | h1) | h1 <;> subst h1 <;> revert h <;> decide

theorem isSpaceChar_dash : isSpaceChar '-' = false := by decide

theorem isUpperAlpha_dash : isUpperAlpha '-' = false := by decide

/-! ### Generic list helper lemmas -/

theorem head?_dropWhile_not (p : α → Bool) (l : List α) {c : α}
    (h : (l.dropWhile p).head? = some c) : p c = false := by
  induction l with
  | nil => simp at h
  | cons a l ih =>
    rw [List.dropWhile_cons] at h
    by_cases hp : p a = true
    · rw [if_pos hp] at h
      exact ih h
    · rw [if_neg hp] at h
      simp only [List.head?_cons, Option.some.injEq] at h
      subst h
      exact Bool.eq_false_iff.mpr hp

theorem dropWhile_eq_self_of_head (p : α → Bool) (l : List α)
    (h : ∀ c, l.head? = some c → p c = false) : l.dropWhile p = l := by
  cases l with
  | nil => rfl
  | cons a l =>
    rw [List.dropWhile_cons, if_neg]
    rw [h a rfl]
    simp

theorem map_eq_self_of_mem {f : α → α} {l : List α} (h : ∀ c ∈ l, f c = c) :
    l.map f = l := by
  induction l with
  | nil => rfl
  | cons a l ih =>
    simp only [List.map_cons, h a (List.mem_cons_self a l), List.cons.injEq, true_and]
    exact ih fun c hc => h c (List.mem_cons_of_mem a hc)

theorem mem_collapseGo {b : Bool} {l : Str} {c : Char} (h : c ∈ collapseGo b l) :
    c = '-' ∨ (c ∈ l ∧ isDashOrSpace c = false) := by
  induction l generalizing b with
  | nil => cases b <;> simp [collapseGo] at h
  | cons a l ih =>
    have step : ∀ (h1 : c ∈ a :: l ∧ isDashOrSpace c = false ∨
        (c = '-' ∨ (c ∈ l ∧ isDashOrSpace c = false))),
        c = '-' ∨ (c ∈ a :: l ∧ isDashOrSpace c = false) := by
      rintro (h1 | h1 | h1)
      · exact Or.inr h1
      · exact Or.inl h1
      · exact Or.inr ⟨List.mem_cons_of_mem a h1.1, h1.2⟩
    cases b <;> simp only [collapseGo] at h <;> by_cases hd : isDashOrSpace a = true
    · rw [if_pos hd] at h
      rcases List.mem_cons.mp h with h1 | h1
      · exact Or.inl h1
      · exact step (Or.inr (ih h1))
    · rw [if_neg hd] at h
      rcases List.mem_cons.mp h with h1 | h1
      · exact step (Or.inl ⟨h1 ▸ List.mem_cons_self a l, h1 ▸ Bool.eq_false_iff.mpr hd⟩)
      · exact step (Or.inr (ih h1))
    · rw [if_pos hd] at h
      exact step (Or.inr (ih h))
    · rw [if_neg hd] at h
      rcases List.mem_cons.mp h with h1 | h1
      · exact step (Or.inl ⟨h1 ▸ List.mem_cons_self a l, h1 ▸ Bool.eq_false_iff.mpr hd⟩)
      · exact step (Or.inr (ih h1))

theorem head?_collapseGo_true {l : Str} {d : Char}
    (h : (collapseGo true l).head? = some d) : isDashOrSpace d = false := by
  induction l with
  | nil => simp [collapseGo] at h
  | cons a l ih =>
    simp only [collapseGo] at h
    by_cases hd : isDashOrSpace a = true
    · rw [if_pos hd] at h
      exact ih h
    · rw [if_neg hd] at h
      simp only [List.head?_cons, Option.some.injEq] at h
      subst h
      exact Bool.eq_false_iff.mpr hd

theorem separatedDashes_collapseGo (b : Bool) (l : Str) :
    SeparatedDashes (collapseGo b l) := by
  induction l generalizing b with
  | nil => cases b <;> simp [collapseGo, SeparatedDashes]
  | cons a l ih =>
    have nodash : ¬isDashOrSpace a = true →
        SeparatedDashes (a :: collapseGo false l) := by
      intro hd
      rw [SeparatedDashes, List.chain'_cons']
      refine ⟨?_, ih false⟩
      intro y _ hcon
      rw [Bool.eq_false_iff.mpr hd] at hcon
      exact absurd hcon.1 (by simp)
    cases b
    · by_cases hd : isDashOrSpace a = true
      · simp only [collapseGo, if_pos hd]
        rw [SeparatedDashes, List.chain'_cons']
        refine ⟨?_, ih true⟩
        intro y hy hcon
        rw [head?_collapseGo_true hy] at hcon
        exact absurd hcon.2 (by simp)
      · simp only [collapseGo, if_neg hd]
        exact nodash hd
    · by_cases hd : isDashOrSpace a = true
      · simp only [collapseGo, if_pos hd]
        exact ih true
      · simp only [collapseGo, if_neg hd]
        exact nodash hd

theorem collapseGo_eq_self {l : Str} (b : Bool)
    (hsp : ∀ c ∈ l, isSpaceChar c = false)
    (hsep : SeparatedDashes l)
    (hb : b = true → ∀ d, l.head? = some d → isDashOrSpace d = false) :
    collapseGo b l = l := by
  induction l generalizing b with
  | nil => cases b <;> rfl
  | cons a l ih =>
    rw [SeparatedDashes, List.chain'_cons'] at hsep
    have hspl : ∀ c ∈ l, isSpaceChar c = false :=
      fun c hc => hsp c (List.mem_cons_of_mem a hc)
    cases b
    · by_cases hd : isDashOrSpace a = true
      · have ha : a = '-' := by
          have hsa := hsp a (List.mem_cons_self a l)
          simp only [isDashOrSpace, Bool.or_eq_true, decide_eq_true_eq] at hd
          rcases hd with h1 | h1
          · exact h1
          · rw [hsa] at h1
            exact absurd h1 (by simp)
        have hrec : collapseGo true l = l := by
          refine ih true hspl hsep.2 ?_
          intro _ d hdh
          rw [Bool.eq_false_iff]
          intro hdd
          exact hsep.1 d hdh ⟨hd, hdd⟩
        simp only [collapseGo, if_pos hd, hrec]
        rw [ha]
      · simp only [collapseGo, if_neg hd]
        rw [ih false hspl hsep.2 (by simp)]
    · have hda : isDashOrSpace a = false := hb rfl a rfl
      simp only [collapseGo, if_neg (by rw [hda]; simp : ¬isDashOrSpace a = true)]
      rw [ih false hspl hsep.2 (by simp)]

/-! ### Structure of `stripChar` output -/

theorem mem_stripChar {ch : Char} {s : Str} {c : Char} (h : c ∈ stripChar ch s) :
    c ∈ s := by
  simp only [stripChar, List.mem_reverse] at h
  have h1 := (List.dropWhile_sublist (l := (s.dropWhile fun c => c = ch).reverse)
    (fun c => c = ch)).mem h
  rw [List.mem_reverse] at h1
  exact (List.dropWhile_sublist (fun c => c = ch)).mem h1

theorem separatedDashes_stripChar {ch : Char} {s : Str} (h : SeparatedDashes s) :
    SeparatedDashes (stripChar ch s) := by
  have flipStep : ∀ {t : Str}, SeparatedDashes t → SeparatedDashes t.reverse := by
    intro t ht
    rw [SeparatedDashes, List.chain'_reverse]
    exact ht.imp fun {a b} hab hcon => hab ⟨hcon.2, hcon.1⟩
  have h1 : SeparatedDashes (s.dropWhile fun c => c = ch) :=
    h.suffix (List.dropWhile_suffix _)
  have h2 := flipStep h1
  have h3 : SeparatedDashes ((s.dropWhile fun c => c = ch).reverse.dropWhile
      fun c => c = ch) := h2.suffix (List.dropWhile_suffix _)
  exact flipStep h3

theorem head?_stripChar (ch : Char) (s : Str) : (stripChar ch s).head? ≠ some ch := by
  intro h
  simp only [stripChar, List.head?_reverse] at h
  rcases List.dropWhile_suffix (l := (s.dropWhile fun c => c = ch).reverse)
      (fun c => c = ch) with ⟨t, ht⟩
  have hlast : (s.dropWhile fun c => c = ch).reverse.getLast? = some ch := by
    rw [← ht, List.getLast?_append, h]
    rfl
  rw [List.getLast?_reverse] at hlast
  exact absurd (head?_dropWhile_not (fun c => c = ch) s hlast) (by simp)

theorem getLast?_stripChar (ch : Char) (s : Str) :
    (stripChar ch s).getLast? ≠ some ch := by
  intro h
  rw [stripChar, List.getLast?_reverse] at h
  exact absurd (head?_dropWhile_not (fun c => c = ch) _ h) (by simp)

theorem stripChar_eq_self {ch : Char} {l : Str} (h1 : l.head? ≠ some ch)
    (h2 : l.getLast? ≠ some ch) : stripChar ch l = l := by
  have e1 : l.dropWhile (fun c => c = ch) = l := by
    apply dropWhile_eq_self_of_head
    intro c hc
    simp only [decide_eq_false_iff_not]
    intro he
    subst he
    exact h1 hc
  have e2 : l.reverse.dropWhile (fun c => c = ch) = l.reverse := by
    apply dropWhile_eq_self_of_head
    intro c hc
    rw [List.head?_reverse] at hc
    simp only [decide_eq_false_iff_not]
    intro he
    subst he
    exact h2 hc
  rw [stripChar, e1, e2, List.reverse_reverse]

/-! ### The testable properties of `slugify` (claim C8) -/

theorem slugify_chars {x : Str} {c : Char} (h : c ∈ slugify x) :
    (isWordChar c = true ∧ isUpperAlpha c = false) ∨ c = '-' := by
  simp only [slugify, collapseDashes] at h
  have h1 := mem_stripChar h
  rcases mem_collapseGo h1 with h2 | h2
  · exact Or.inr h2
  · rcases h2 with ⟨hmem, hnd⟩
    rw [List.mem_filter] at hmem
    rcases hmem with ⟨hmap, hp⟩
    rw [List.mem_map] at hmap
    rcases hmap with ⟨a, _, ha⟩
    have hup : isUpperAlpha c = false := ha ▸ isUpperAlpha_toLower a
    simp only [isDashOrSpace, Bool.or_eq_false_iff, decide_eq_false_iff_not] at hnd
    simp only [Bool.or_eq_true, decide_eq_true_eq] at hp
    rcases hp with (hw | hs) | hdash
    · exact Or.inl ⟨hw, hup⟩
    · rw [hnd.2] at hs
      exact absurd hs (by simp)
    · exact absurd hdash hnd.1

theorem slugify_no_space {x : Str} {c : Char} (h : c ∈ slugify x) :
    isSpaceChar c = false := by
  rcases slugify_chars h with hw | hd
  · exact isSpaceChar_not_word hw.1
  · rw [hd]
    exact isSpaceChar_dash

theorem slugify_separated (x : Str) : SeparatedDashes (slugify x) := by
  simp only [slugify, collapseDashes]
  exact separatedDashes_stripChar (separatedDashes_collapseGo false _)

/-- Claim C8: `slugify` is idempotent, its output consists only of
lower-case word characters and hyphens, and the output has no leading or
trailing hyphen. -/
theorem slugify_idempotent_and_alphabet (x : Str) :
    slugify (slugify x) = slugify x ∧
    (∀ c ∈ slugify x, (isWordChar c = true ∧ isUpperAlpha c = false) ∨ c = '-') ∧
    (slugify x).head? ≠ some '-' ∧ (slugify x).getLast? ≠ some '-' := by
  have hhead : (slugify x).head? ≠ some '-' := by
    simp only [slugify]
    exact head?_stripChar '-' _
  have hlast : (slugify x).getLast? ≠ some '-' := by
    simp only [slugify]
    exact getLast?_stripChar '-' _
  refine ⟨?_, fun c hc => slugify_chars hc, hhead, hlast⟩
  have hmap : (slugify x).map Char.toLower = slugify x := by
    apply map_eq_self_of_mem
    intro c hc
    rcases slugify_chars hc with h | h
    · exact toLower_eq_self h.2
    · rw [h]
      exact toLower_eq_self isUpperAlpha_dash
  have hfil : (slugify x).filter
      (fun c => isWordChar c || isSpaceChar c || c = '-') = slugify x := by
    rw [List.filter_eq_self]
    intro c hc
    rcases slugify_chars hc with h | h
    · simp [h.1]
    · simp [h]
  have hcol : collapseDashes (slugify x) = slugify x := by
    rw [collapseDashes]
    exact collapseGo_eq_self false (fun c hc => slugify_no_space hc)
      (slugify_separated x) (by simp)
  have hstrip : stripChar '-' (slugify x) = slugify x :=
    stripChar_eq_self hhead hlast
  show stripChar '-' (collapseDashes (((slugify x).map Char.toLower).filter
    fun c => isWordChar c || isSpaceChar c || c = '-')) = slugify x
  rw [hmap, hfil, hcol, hstrip]

theorem digitChar_toNat {d : Nat} (h : d < 10) : (digitChar d).toNat = 48 + d :=
  char_toNat_ofNat (nat_isValidChar_of_small (by omega))

theorem reprVal_append_digit (u : Str) {d : Nat} (h : d < 10) :
    reprVal (u ++ [digitChar d]) = reprVal u * 10 + d := by
  rw [reprVal, List.foldl_append]
  simp only [List.foldl_cons, List.foldl_nil, digitChar_toNat h]
  rw [reprVal]
  omega

theorem reprVal_natReprAux : ∀ {fuel n : Nat}, n ≤ fuel →
    reprVal (natReprAux n (fuel + 1)) = n := by
  intro fuel
  induction fuel with
  | zero =>
    intro n h
    interval_cases n
    decide
  | succ fuel ih =>
    intro n h
    have hstep : natReprAux n (fuel + 1 + 1) =
        if n < 10 then [digitChar n]
        else natReprAux (n / 10) (fuel + 1) ++ [digitChar (n % 10)] := rfl
    by_cases h10 : n < 10
    · rw [hstep, if_pos h10]
      simp only [reprVal, List.foldl_cons, List.foldl_nil, digitChar_toNat h10]
      omega
    · rw [hstep, if_neg h10, reprVal_append_digit _ (Nat.mod_lt n (by omega)),
        ih (by omega)]
      omega

theorem reprVal_natRepr (n : Nat) : reprVal (natRepr n) = n :=
  reprVal_natReprAux (Nat.le_refl n)

theorem natRepr_injective {m n : Nat} (h : natRepr m = natRepr n) : m = n := by
  have := reprVal_natRepr m
  rw [h, reprVal_natRepr] at this
  omega

theorem natReprAux_ne_nil (n fuel : Nat) : natReprAux n (fuel + 1) ≠ [] := by
  by_cases h10 : n < 10
  · simp [natReprAux, if_pos h10]
  · simp [natReprAux, if_neg h10]

theorem natRepr_ne_nil (n : Nat) : natRepr n ≠ [] := natReprAux_ne_nil n n

theorem candidateName_injective (base ext : Str) :
    Function.Injective (candidateName base ext) := by
  intro i j h
  match i, j with
  | 0, 0 => rfl
  | 0, k+1 =>
    exfalso
    have hl := congrArg List.length h
    simp only [candidateName, List.length_append] at hl
    have := List.length_pos.mpr (natRepr_ne_nil (k + 1))
    omega
  | k+1, 0 =>
    exfalso
    have hl := congrArg List.length h
    simp only [candidateName, List.length_append] at hl
    have := List.length_pos.mpr (natRepr_ne_nil (k + 1))
    omega
  | i+1, j+1 =>
    simp only [candidateName, List.append_assoc] at h
    have h1 := List.append_cancel_left h
    have h2 := List.append_cancel_left h1
    have h3 := List.append_cancel_right h2
    rw [natRepr_injective h3]

theorem create_note_loop_not_mem (existing : List Str) (base ext : Str) :
    ∀ (fuel m : Nat),
      (∃ j, j < fuel ∧ candidateName base ext (m + j) ∉ existing) →
      create_note_loop existing base ext fuel (m + 1)
        (candidateName base ext m) ∉ existing := by
  intro fuel
  induction fuel with
  | zero =>
    intro m ⟨j, hj, _⟩
    omega
  | succ fuel ih =>
    intro m ⟨j, hj, hfree⟩
    by_cases hmem : candidateName base ext m ∈ existing
    · simp only [create_note_loop, if_pos hmem]
      have hj0 : j ≠ 0 := by
        intro h0
        rw [h0, Nat.add_zero] at hfree
        exact hfree hmem
      have : create_note_loop existing base ext fuel (m + 1 + 1)
          (candidateName base ext (m + 1)) ∉ existing := by
        apply ih (m + 1)
        exact ⟨j - 1, by omega, by rw [show m + 1 + (j - 1) = m + j by omega]; exact hfree⟩
      simpa only [candidateName] using this
    · simp only [create_note_loop, if_neg hmem]
      exact hmem

theorem create_note_loop_reaches (existing : List Str) (base ext : Str) :
    ∀ (fuel m N : Nat), m ≤ N →
      (∀ k, m ≤ k → k < N → candidateName base ext k ∈ existing) →
      candidateName base ext N ∉ existing →
      N - m < fuel →
      create_note_loop existing base ext fuel (m + 1)
        (candidateName base ext m) = candidateName base ext N := by
  intro fuel
  induction fuel with
  | zero =>
    intro m N _ _ _ h
    omega
  | succ fuel ih =>
    intro m N hmN hall hfree hlt
    by_cases heq : m = N
    · subst heq
      simp only [create_note_loop, if_neg hfree]
    · have hmem : candidateName base ext m ∈ existing :=
        hall m (Nat.le_refl m) (by omega)
      simp only [create_note_loop, if_pos hmem]
      have := ih (m + 1) N (by omega)
        (fun k hk1 hk2 => hall k (by omega) hk2) hfree (by omega)
      simpa only [candidateName] using this

theorem exists_free_candidate (existing : List Str) (base ext : Str) :
    ∃ j, j < existing.length + 1 ∧ candidateName base ext j ∉ existing := by
  by_contra hcon
  push_neg at hcon
  have hsub : (List.range (existing.length + 1)).map (candidateName base ext) ⊆
      existing := by
    intro c hc
    rw [List.mem_map] at hc
    rcases hc with ⟨j, hj, rfl⟩
    exact hcon j (List.mem_range.mp hj)
  have hnd : ((List.range (existing.length + 1)).map (candidateName base ext)).Nodup :=
    (List.nodup_range _).map (candidateName_injective base ext)
  have := (List.subperm_of_subset hnd hsub).length_le
  simp only [List.length_map, List.length_range] at this
  omega

/-- Claim C3: `create_note` path resolution never returns an existing path,
and with `base.md` through `base-(N-1).md` taken and `base-N.md` free it
returns `base-N.md` (first free integer suffix, starting at 1). -/
theorem create_note_path_spec (existing : List Str) (base ext : Str) :
    create_note_path existing base ext ∉ existing ∧
    ∀ N, (∀ k, k < N → candidateName base ext k ∈ existing) →
      candidateName base ext N ∉ existing →
      create_note_path existing base ext = candidateName base ext N := by
  constructor
  · have := create_note_loop_not_mem existing base ext (existing.length + 1) 0
      (by simpa using exists_free_candidate existing base ext)
    simpa only [candidateName, Nat.zero_add] using this
  · intro N hall hfree
    have hNle : N ≤ existing.length := by
      by_contra hN
      push_neg at hN
      have hsub : (List.range N).map (candidateName base ext) ⊆ existing := by
        intro c hc
        rw [List.mem_map] at hc
        rcases hc with ⟨j, hj, rfl⟩
        exact hall j (List.mem_range.mp hj)
      have hnd : ((List.range N).map (candidateName base ext)).Nodup :=
        (List.nodup_range _).map (candidateName_injective base ext)
      have := (List.subperm_of_subset hnd hsub).length_le
      simp only [List.length_map, List.length_range] at this
      omega
    have := create_note_loop_reaches existing base ext (existing.length + 1) 0 N
      (by omega) (fun k _ hk2 => hall k hk2) hfree (by omega)
    simpa only [candidateName, Nat.zero_add] using this

/-- Witness for claim C3 at a concrete vault listing. -/
theorem create_note_path_spec_witness :
    create_note_path ["base.md".data, "base-1.md".data, "other.md".data]
        ("base".data) (".md".data) ∉
      ["base.md".data, "base-1.md".data, "other.md".data] ∧
    create_note_path ["base.md".data, "base-1.md".data, "other.md".data]
        ("base".data) (".md".data) = candidateName ("base".data) (".md".data) 2 :=
  ⟨(create_note_path_spec _ _ _).1,
   (create_note_path_spec ["base.md".data, "base-1.md".data, "other.md".data]
      ("base".data) (".md".data)).2 2 (by decide) (by decide)⟩

example :
    appendSectioned ("B".data)
      ["## A\n".data, "## B\n".data, "### B.1\n".data, "x\n".data, "## C\n".data]
      ("Z".data) =
      ["## A\n".data, "## B\n".data, "### B.1\n".data, "x\n".data, "Z".data,
       "## C\n".data] := by decide

/-- Claim C5: the simple append path writes the file back as the old
contents followed by exactly the block
newline, rule, newline, header with HH:MM, blank line, content, newline,
with both time fields two digits wide. -/
theorem append_to_daily_note_block_exact (file content : Str) (h m : Nat)
    (hh : h < 24) (hm : m < 60) :
    append_to_daily_note none file h m content =
      file ++ ("\n---\n## ".data ++ pad2 h ++ ":".data ++ pad2 m ++
        "\n\n".data ++ content ++ "\n".data) ∧
    (pad2 h).length = 2 ∧ (pad2 m).length = 2 := by
  have hlen : ∀ n, n < 100 → (pad2 n).length = 2 := by decide
  refine ⟨?_, hlen h (by omega), hlen m (by omega)⟩
  simp only [append_to_daily_note, formattedContent, strftimeHM, List.append_assoc]

/-- Witness for claim C5 at a concrete file, time and content. -/
theorem append_to_daily_note_block_exact_witness :
    append_to_daily_note none ("# Monday\n".data) 14 32 ("Bought milk".data) =
      "# Monday\n".data ++ ("\n---\n## ".data ++ pad2 14 ++ ":".data ++ pad2 32 ++
        "\n\n".data ++ "Bought milk".data ++ "\n".data) ∧
    (pad2 14).length = 2 ∧ (pad2 32).length = 2 :=
  append_to_daily_note_block_exact ("# Monday\n".data) ("Bought milk".data)
    14 32 (by decide) (by decide)

theorem specScan_eq_none {sec : Str} : ∀ {ls : List Str},
    specScan sec ls = none ↔ ∀ l ∈ ls, matchesSection sec l = false := by
  intro ls
  induction ls with
  | nil => simp [specScan]
  | cons l ls ih =>
    simp only [specScan]
    by_cases hm : matchesSection sec l = true
    · simp [if_pos hm, hm]
    · rw [if_neg hm]
      cases hs : specScan sec ls with
      | none =>
        simp only [Option.map_none', true_iff]
        intro x hx
        rcases List.mem_cons.mp hx with h1 | h1
        · subst h1
          exact Bool.eq_false_iff.mpr hm
        · exact (ih.mp hs) x h1
      | some p =>
        simp only [Option.map_some']
        constructor
        · intro hfalse
          exact absurd hfalse (by simp)
        · intro hall
          have := ih.mpr fun x hx => hall x (List.mem_cons_of_mem l hx)
          rw [hs] at this
          exact absurd this (by simp)

theorem scanLines_no_match {sec : Str} : ∀ {ls : List Str} (lvl i : Nat),
    (∀ l ∈ ls, matchesSection sec l = false) →
    scanLines sec ls false lvl i = (false, none) := by
  intro ls
  induction ls with
  | nil =>
    intro lvl i _
    rfl
  | cons l ls ih =>
    intro lvl i h
    have hl := h l (List.mem_cons_self l ls)
    have hrest := fun x hx => h x (List.mem_cons_of_mem l hx)
    simp only [scanLines]
    by_cases hh : isHeaderLine l = true
    · rw [if_pos hh]
      have hd : ¬(deHashed l = pyStrip sec) := by
        rw [matchesSection, hh, Bool.true_and] at hl
        exact of_decide_eq_false hl
      rw [if_neg hd, if_neg (by simp : ¬(false && decide (lineLevel l ≤ lvl)) = true)]
      exact ih lvl (i + 1) hrest
    · rw [if_neg hh]
      exact ih lvl (i + 1) hrest

theorem scanLines_after_found {sec : Str} : ∀ {ls : List Str} (lvl i : Nat),
    (∀ l ∈ ls, matchesSection sec l = false) →
    scanLines sec ls true lvl i =
      (true, (specBoundary lvl ls).map (fun j => i + j)) := by
  intro ls
  induction ls with
  | nil =>
    intro lvl i _
    rfl
  | cons l ls ih =>
    intro lvl i h
    have hl := h l (List.mem_cons_self l ls)
    have hrest := fun x hx => h x (List.mem_cons_of_mem l hx)
    simp only [scanLines, specBoundary]
    by_cases hh : isHeaderLine l = true
    · rw [if_pos hh]
      have hd : ¬(deHashed l = pyStrip sec) := by
        rw [matchesSection, hh, Bool.true_and] at hl
        exact of_decide_eq_false hl
      rw [if_neg hd]
      by_cases hle : lineLevel l ≤ lvl
      · rw [if_pos (by simp [hle] : (true && decide (lineLevel l ≤ lvl)) = true)]
        rw [if_pos (by simp [hh, hle])]
        simp
      · rw [if_neg (by simp [hle] : ¬(true && decide (lineLevel l ≤ lvl)) = true)]
        rw [if_neg (by simp [hle])]
        rw [ih lvl (i + 1) hrest]
        cases hb : specBoundary lvl ls <;> simp [hb] <;> omega
    · rw [if_neg hh]
      rw [if_neg (by simp [hh])]
      rw [ih lvl (i + 1) hrest]
      cases hb : specBoundary lvl ls <;> simp [hb] <;> omega

theorem scanLines_of_specScan {sec : Str} : ∀ {ls : List Str} {m lvl : Nat}
    (l0 i : Nat),
    specScan sec ls = some (m, lvl) →
    ls.countP (matchesSection sec) ≤ 1 →
    scanLines sec ls false l0 i =
      (true, (specBoundary lvl (ls.drop (m + 1))).map (fun j => i + m + 1 + j)) := by
  intro ls
  induction ls with
  | nil =>
    intro m lvl l0 i hscan _
    simp [specScan] at hscan
  | cons l ls ih =>
    intro m lvl l0 i hscan hcount
    rw [List.countP_cons] at hcount
    by_cases hm : matchesSection sec l = true
    · rw [specScan, if_pos hm] at hscan
      simp only [Option.some.injEq, Prod.mk.injEq] at hscan
      rcases hscan with ⟨hm0, hlvl⟩
      subst hm0
      subst hlvl
      have hrest : ∀ x ∈ ls, matchesSection sec x = false := by
        rw [hm, if_pos rfl] at hcount
        have hzero : ls.countP (matchesSection sec) = 0 := by omega
        intro x hx
        exact Bool.eq_false_iff.mpr (List.countP_eq_zero.mp hzero x hx)
      have hhl : isHeaderLine l = true := by
        rw [matchesSection, Bool.and_eq_true] at hm
        exact hm.1
      have hdh : deHashed l = pyStrip sec := by
        rw [matchesSection, Bool.and_eq_true, decide_eq_true_eq] at hm
        exact hm.2
      simp only [scanLines, if_pos hhl, if_pos hdh]
      rw [scanLines_after_found (lineLevel l) (i + 1) hrest]
      simp only [List.drop_succ_cons, List.drop_zero]
    · rw [specScan, if_neg hm] at hscan
      cases hs : specScan sec ls with
      | none =>
        rw [hs] at hscan
        simp at hscan
      | some p =>
        rw [hs] at hscan
        simp only [Option.map_some', Option.some.injEq, Prod.mk.injEq] at hscan
        rcases hscan with ⟨hm1, hlvl⟩
        have hm' : m = p.1 + 1 := hm1.symm
        have hcount' : ls.countP (matchesSection sec) ≤ 1 := by
          by_cases hml : matchesSection sec l = true
          · exact absurd hml hm
          · omega
        have hstep := ih l0 (i + 1) (by rw [hs, ← hlvl] : specScan sec ls = some (p.1, lvl))
          hcount'
        have hfalse : isHeaderLine l = true → ¬(deHashed l = pyStrip sec) := by
          intro hhl hdh
          exact hm (by rw [matchesSection, hhl, Bool.true_and, decide_eq_true_eq]; exact hdh)
        by_cases hh : isHeaderLine l = true
        · simp only [scanLines, if_pos hh, if_neg (hfalse hh),
            if_neg (by simp : ¬(false && decide (lineLevel l ≤ l0)) = true)]
          rw [hstep, hm']
          simp only [List.drop_succ_cons]
          cases hb : specBoundary lvl (ls.drop (p.1 + 1)) <;> simp [hb] <;> omega
        · simp only [scanLines, if_neg hh]
          rw [hstep, hm']
          simp only [List.drop_succ_cons]
          cases hb : specBoundary lvl (ls.drop (p.1 + 1)) <;> simp [hb] <;> omega

/-- Claim C2 (amended): on files in which at most one line's de-hashed
trimmed header text equals the section name, the section-aware append
inserts before the first subsequent header of level at most the target's
(end of file when none), with the level measured as the source measures
it — the length of the first whitespace-delimited token of the stripped
line, which equals the count of leading hashes only when whitespace
follows the hashes — and when the section is absent it places the block
at end of file under a fresh level-2 header. -/
theorem appendSectioned_spec (sec : Str) (lines : List Str) (block : Str)
    (huniq : lines.countP (matchesSection sec) ≤ 1) :
    appendSectioned sec lines block = specAppendSectioned sec lines block := by
  cases hscan : specScan sec lines with
  | none =>
    have hall := specScan_eq_none.mp hscan
    simp only [appendSectioned, specAppendSectioned, hscan]
    rw [scanLines_no_match 0 0 hall]
    simp only [Option.getD_none, Bool.false_eq_true, if_neg]
    exact List.insertIdx_length_self lines _
  | some p =>
    obtain ⟨m, lvl⟩ := p
    simp only [appendSectioned, specAppendSectioned, hscan]
    rw [scanLines_of_specScan 0 0 hscan huniq]
    cases hb : specBoundary lvl (lines.drop (m + 1)) <;>
      simp [hb, Nat.zero_add]

/-- Counterexample to claim C2 as stated (rendered by
`claimAppendSectioned`, whose level is the count of leading hashes), at
two concrete inputs.  First, on a file whose section header appears
twice, the source re-anchors at the duplicate header instead of treating
it as a boundary, so the block lands at end of file while the claim
requires it before the duplicate.  Second, on a single-match file whose
next header has no space after the hashes (`##X`), the source counts its
level as 3 (token length) rather than 2 (leading hashes), so the source
sends the block to end of file while the claim requires it before that
header. -/
theorem appendSectioned_counterexample :
    (appendSectioned ("B".data) ["## B\n".data, "x\n".data, "## B\n".data]
        ("Z".data) =
      ["## B\n".data, "x\n".data, "## B\n".data, "Z".data] ∧
     claimAppendSectioned ("B".data) ["## B\n".data, "x\n".data, "## B\n".data]
        ("Z".data) =
      ["## B\n".data, "x\n".data, "Z".data, "## B\n".data] ∧
     appendSectioned ("B".data) ["## B\n".data, "x\n".data, "## B\n".data]
        ("Z".data) ≠
      claimAppendSectioned ("B".data) ["## B\n".data, "x\n".data, "## B\n".data]
        ("Z".data)) ∧
    (appendSectioned ("B".data) ["## B\n".data, "##X\n".data] ("Z".data) =
      ["## B\n".data, "##X\n".data, "Z".data] ∧
     claimAppendSectioned ("B".data) ["## B\n".data, "##X\n".data] ("Z".data) =
      ["## B\n".data, "Z".data, "##X\n".data] ∧
     ["## B\n".data, "##X\n".data].countP (matchesSection ("B".data)) ≤ 1 ∧
     appendSectioned ("B".data) ["## B\n".data, "##X\n".data] ("Z".data) ≠
      claimAppendSectioned ("B".data) ["## B\n".data, "##X\n".data] ("Z".data)) := by
  exact ⟨⟨by decide, by decide, by decide⟩, by decide, by decide, by decide, by decide⟩

/-- Witness for the amended claim C2 on the specification's own example
file (sections A, B, B.1, C). -/
theorem appendSectioned_spec_witness :
    appendSectioned ("B".data)
        ["## A\n".data, "## B\n".data, "### B.1\n".data, "x\n".data, "## C\n".data]
        ("Z".data) =
      specAppendSectioned ("B".data)
        ["## A\n".data, "## B\n".data, "### B.1\n".data, "x\n".data, "## C\n".data]
        ("Z".data) :=
  appendSectioned_spec ("B".data)
    ["## A\n".data, "## B\n".data, "### B.1\n".data, "x\n".data, "## C\n".data]
    ("Z".data) (by decide)

example : format_date_for_filename ("YYYY-MM-DD".data) = "%Y-%m-%d".data := by decide

theorem replaceAllGo_id {p : Char} {ps s : Str} (fuel : Nat)
    (h : ∀ c ∈ s, c ≠ p) : replaceAllGo (p :: ps) rep fuel s = s := by
  induction fuel generalizing s with
  | zero => rfl
  | succ fuel ih =>
    cases s with
    | nil => rfl
    | cons c cs =>
      have hcp : ¬((p :: ps) ≠ [] ∧ (p :: ps).isPrefixOf (c :: cs) = true) := by
        rintro ⟨-, hpre⟩
        rw [List.isPrefixOf_iff_prefix] at hpre
        rcases hpre with ⟨t, ht⟩
        rw [List.cons_append] at ht
        have : p = c := (List.cons.inj ht).1
        exact h c (List.mem_cons_self c cs) this.symm
      rw [replaceAllGo, if_neg hcp]
      rw [ih fun x hx => h x (List.mem_cons_of_mem c hx)]

theorem replaceAll_id {p : Char} {ps rep s : Str} (h : ∀ c ∈ s, c ≠ p) :
    replaceAll (p :: ps) rep s = s :=
  replaceAllGo_id s.length h

/-- Counterexample to claim C7 as stated: on the format string of five
year characters, the first pass rewrites the four-character year token and
the leftover fifth character then recombines with the replacement's
second character to form a two-character year token, yielding a
percent-sign, percent-sign, lower-y — not the percent-Y followed by the
untouched leftover character that independent token mapping requires. -/
theorem format_date_counterexample :
    format_date_for_filename ("YYYYY".data) = "%%y".data ∧
    format_date_for_filename ("YYYYY".data) ≠ "%YY".data := by
  exact ⟨by decide, by decide⟩

/-- Claim C7 (amended): the tokens are replaced sequentially in the order
YYYY, YY, MM, DD, HH, mm, ss, each pass operating on the previous output,
so replacement output may recombine with leftover token characters; on
format strings containing no token character at all the conversion is the
identity, and the standard format YYYY-MM-DD maps to the host pattern for
year-month-day. -/
theorem replaceAllGo_fuel {pat rep : Str} :
    ∀ (fuel₁ : Nat) {fuel₂ : Nat} {s : Str}, s.length ≤ fuel₁ → s.length ≤ fuel₂ →
      replaceAllGo pat rep fuel₁ s = replaceAllGo pat rep fuel₂ s := by
  intro fuel₁
  induction fuel₁ with
  | zero =>
    intro fuel₂ s h1 _
    have hs : s = [] := List.eq_nil_of_length_eq_zero (Nat.le_zero.mp h1)
    subst hs
    cases fuel₂ <;> rfl
  | succ fuel ih =>
    intro fuel₂ s h1 h2
    cases s with
    | nil => cases fuel₂ <;> rfl
    | cons c cs =>
      cases fuel₂ with
      | zero => simp at h2
      | succ f₂ =>
        rw [replaceAllGo, replaceAllGo]
        by_cases hp : pat ≠ [] ∧ pat.isPrefixOf (c :: cs) = true
        · rw [if_pos hp, if_pos hp]
          congr 1
          have hplen : 1 ≤ pat.length := List.length_pos.mpr hp.1
          apply ih
          · simp only [List.length_drop, List.length_cons]
            simp only [List.length_cons] at h1
            omega
          · simp only [List.length_drop, List.length_cons]
            simp only [List.length_cons] at h2
            omega
        · rw [if_neg hp, if_neg hp]
          congr 1
          simp only [List.length_cons] at h1 h2
          exact ih (by omega) (by omega)

theorem replaceAllGo_split {pat rep : Str} (hpat : pat ≠ []) {c : Char}
    (hc : c ∉ pat) :
    ∀ (fuel : Nat) (u v : Str), (u ++ c :: v).length ≤ fuel →
      replaceAllGo pat rep fuel (u ++ c :: v) =
        replaceAllGo pat rep u.length u ++ c :: replaceAllGo pat rep v.length v := by
  intro fuel
  induction fuel with
  | zero =>
    intro u v h
    simp [List.length_append] at h
  | succ fuel ih =>
    intro u v h
    cases u with
    | nil =>
      have hnp : ¬(pat ≠ [] ∧ pat.isPrefixOf (c :: v) = true) := by
        rintro ⟨-, hpre⟩
        rw [List.isPrefixOf_iff_prefix] at hpre
        rcases hpre with ⟨t, ht⟩
        cases hp2 : pat with
        | nil => exact hpat hp2
        | cons p ps =>
          rw [hp2, List.cons_append] at ht
          have hpc : p = c := (List.cons.inj ht).1
          exact hc (hp2 ▸ (hpc ▸ List.mem_cons_self p ps))
      simp only [List.nil_append, List.length_nil]
      have hzero : replaceAllGo pat rep 0 [] = [] := rfl
      rw [hzero]
      rw [replaceAllGo, if_neg hnp, List.nil_append]
      congr 1
      apply replaceAllGo_fuel
      · simp only [List.nil_append, List.length_cons] at h
        omega
      · exact Nat.le_refl _
    | cons a u' =>
      have hlen : (u' ++ c :: v).length ≤ fuel := by
        simp only [List.cons_append, List.length_cons] at h
        simpa using h
      by_cases hp : pat.isPrefixOf ((a :: u') ++ c :: v) = true
      · rw [List.isPrefixOf_iff_prefix] at hp
        have hpu : pat <+: a :: u' := by
          rcases List.prefix_or_prefix_of_prefix hp
              (List.prefix_append (a :: u') (c :: v)) with hcase | hcase
          · exact hcase
          · rcases hcase with ⟨w, hw⟩
            rcases hp with ⟨t, ht⟩
            rw [← hw, List.append_assoc] at ht
            have hwt := List.append_cancel_left ht
            cases w with
            | nil =>
              rw [← hw, List.append_nil]
            | cons w0 ws =>
              exfalso
              rw [List.cons_append] at hwt
              have hwc : w0 = c := (List.cons.inj hwt).1
              apply hc
              rw [← hw, hwc]
              exact List.mem_append_right _ (List.mem_cons_self _ _)
        have hple : pat.length ≤ (a :: u').length := hpu.length_le
        have hppre : pat.isPrefixOf ((a :: u') ++ c :: v) = true := by
          rw [List.isPrefixOf_iff_prefix]
          exact hpu.trans (List.prefix_append _ _)
        have hppre2 : pat.isPrefixOf (a :: u') = true := by
          rw [List.isPrefixOf_iff_prefix]
          exact hpu
        have hplen : 1 ≤ pat.length := List.length_pos.mpr hpat
        have hstep : replaceAllGo pat rep (fuel + 1) ((a :: u') ++ c :: v) =
            rep ++ replaceAllGo pat rep fuel
              (((a :: u') ++ c :: v).drop pat.length) := by
          rw [show ((a :: u') ++ c :: v) = a :: (u' ++ c :: v) from rfl]
          rw [replaceAllGo, if_pos ⟨hpat, by
            rw [show (a :: (u' ++ c :: v)) = ((a :: u') ++ c :: v) from rfl]
            exact hppre⟩]
        rw [hstep, List.drop_append_of_le_length hple]
        have hlen2 : ((a :: u').drop pat.length ++ c :: v).length ≤ fuel := by
          simp only [List.length_append, List.length_drop, List.length_cons] at h ⊢
          omega
        rw [ih ((a :: u').drop pat.length) v hlen2]
        have hstep2 : replaceAllGo pat rep (a :: u').length (a :: u') =
            rep ++ replaceAllGo pat rep u'.length ((a :: u').drop pat.length) := by
          rw [show (a :: u').length = u'.length + 1 from rfl]
          rw [replaceAllGo, if_pos ⟨hpat, hppre2⟩]
        rw [hstep2]
        rw [replaceAllGo_fuel u'.length (by
            simp only [List.length_drop, List.length_cons]
            omega) (Nat.le_refl _)]
        rw [List.append_assoc]
      · have hnp1 : ¬(pat ≠ [] ∧ pat.isPrefixOf (a :: (u' ++ c :: v)) = true) := by
          rintro ⟨-, hpre⟩
          exact hp (by
            rw [show ((a :: u') ++ c :: v) = a :: (u' ++ c :: v) from rfl]
            exact hpre)
        have hnp2 : ¬(pat ≠ [] ∧ pat.isPrefixOf (a :: u') = true) := by
          rintro ⟨-, hpre⟩
          apply hp
          rw [List.isPrefixOf_iff_prefix] at hpre ⊢
          exact hpre.trans (List.prefix_append _ _)
        rw [show ((a :: u') ++ c :: v) = a :: (u' ++ c :: v) from rfl]
        rw [replaceAllGo, if_neg hnp1]
        rw [ih u' v hlen]
        rw [show (a :: u').length = u'.length + 1 from rfl]
        rw [replaceAllGo, if_neg hnp2]
        rfl

theorem replaceAll_split {pat rep : Str} (hpat : pat ≠ []) {c : Char}
    (hc : c ∉ pat) (u v : Str) :
    replaceAll pat rep (u ++ c :: v) =
      replaceAll pat rep u ++ c :: replaceAll pat rep v := by
  rw [replaceAll, replaceAll, replaceAll]
  exact replaceAllGo_split hpat hc (u ++ c :: v).length u v (Nat.le_refl _)

theorem format_date_split {c : Char}
    (hc : c ∉ ['Y', 'M', 'D', 'H', 'm', 's']) (u v : Str) :
    format_date_for_filename (u ++ c :: v) =
      format_date_for_filename u ++ c :: format_date_for_filename v := by
  simp only [List.mem_cons, List.not_mem_nil, or_false, not_or] at hc
  obtain ⟨hY, hM, hD, hH, hm, hs⟩ := hc
  have pY : c ∉ ("YYYY".data : Str) := by
    rw [show ("YYYY".data : Str) = ['Y', 'Y', 'Y', 'Y'] from rfl]
    simp [hY]
  have pY2 : c ∉ ("YY".data : Str) := by
    rw [show ("YY".data : Str) = ['Y', 'Y'] from rfl]
    simp [hY]
  have pM : c ∉ ("MM".data : Str) := by
    rw [show ("MM".data : Str) = ['M', 'M'] from rfl]
    simp [hM]
  have pD : c ∉ ("DD".data : Str) := by
    rw [show ("DD".data : Str) = ['D', 'D'] from rfl]
    simp [hD]
  have pH : c ∉ ("HH".data : Str) := by
    rw [show ("HH".data : Str) = ['H', 'H'] from rfl]
    simp [hH]
  have pm : c ∉ ("mm".data : Str) := by
    rw [show ("mm".data : Str) = ['m', 'm'] from rfl]
    simp [hm]
  have ps : c ∉ ("ss".data : Str) := by
    rw [show ("ss".data : Str) = ['s', 's'] from rfl]
    simp [hs]
  simp only [format_date_for_filename, format_map, List.foldl_cons, List.foldl_nil]
  rw [replaceAll_split (by decide) pY u v]
  rw [replaceAll_split (by decide) pY2]
  rw [replaceAll_split (by decide) pM]
  rw [replaceAll_split (by decide) pD]
  rw [replaceAll_split (by decide) pH]
  rw [replaceAll_split (by decide) pm]
  rw [replaceAll_split (by decide) ps]

/-- Claim C7 (amended): the token conversion runs the replacement passes
sequentially in the order YYYY, YY, MM, DD, HH, mm, ss, each pass on the
previous pass output, so adjacent token characters can recombine across
passes; but every character outside the token alphabet is left unchanged
wherever it occurs — the conversion splits at each such character into
independent conversions of the surrounding segments — a token-free string
is unchanged, and the standard format YYYY-MM-DD maps to the host pattern
for year-month-day. -/
theorem format_date_amended (c : Char) (u v s : Str)
    (hc : c ∉ ['Y', 'M', 'D', 'H', 'm', 's'])
    (h : ∀ x ∈ s, x ∉ ['Y', 'M', 'D', 'H', 'm', 's']) :
    format_date_for_filename (u ++ c :: v) =
      format_date_for_filename u ++ c :: format_date_for_filename v ∧
    format_date_for_filename s = s ∧
    format_date_for_filename ("YYYY-MM-DD".data) = "%Y-%m-%d".data := by
  refine ⟨format_date_split hc u v, ?_, by decide⟩
  have hY : ∀ x ∈ s, x ≠ 'Y' := fun x hx he => h x hx (by rw [he]; simp)
  have hM : ∀ x ∈ s, x ≠ 'M' := fun x hx he => h x hx (by rw [he]; simp)
  have hD : ∀ x ∈ s, x ≠ 'D' := fun x hx he => h x hx (by rw [he]; simp)
  have hH : ∀ x ∈ s, x ≠ 'H' := fun x hx he => h x hx (by rw [he]; simp)
  have hm : ∀ x ∈ s, x ≠ 'm' := fun x hx he => h x hx (by rw [he]; simp)
  have hs : ∀ x ∈ s, x ≠ 's' := fun x hx he => h x hx (by rw [he]; simp)
  simp only [format_date_for_filename, format_map, List.foldl_cons, List.foldl_nil]
  rw [replaceAll_id hY, replaceAll_id hY, replaceAll_id hM, replaceAll_id hD,
    replaceAll_id hH, replaceAll_id hm, replaceAll_id hs]

/-- Witness for the amended claim C7: a mixed format string splits at the
non-token hyphen, a token-free string is unchanged, and the standard
format converts. -/
theorem format_date_amended_witness :
    format_date_for_filename ("MM".data ++ '-' :: "DD".data) =
      format_date_for_filename ("MM".data) ++ '-' ::
        format_date_for_filename ("DD".data) ∧
    format_date_for_filename ("ab_c.d".data) = "ab_c.d".data ∧
    format_date_for_filename ("YYYY-MM-DD".data) = "%Y-%m-%d".data :=
  format_date_amended '-' ("MM".data) ("DD".data) ("ab_c.d".data)
    (by decide) (by decide)

/-- Claim C6: the decision is NewNote exactly when the triggering user's
own reactions include the memo emoji, regardless of other users'
reactions; otherwise it is Daily.  The catalog may carry any runtime
extension (such as the discovered Save entry). -/
theorem chooseAction_spec (ext : List (Str × Str)) (msg : Message) (uid : Nat) :
    (chooseAction (ACTION_EMOJIS ++ ext) msg uid = "note".data ↔
      ∃ r ∈ msg.reactions, r.emoji = "📝".data ∧ uid ∈ r.users) ∧
    (chooseAction (ACTION_EMOJIS ++ ext) msg uid = "daily".data ↔
      ¬∃ r ∈ msg.reactions, r.emoji = "📝".data ∧ uid ∈ r.users) := by
  have hmem : "📝".data ∈ userReactions (ACTION_EMOJIS ++ ext) msg uid ↔
      ∃ r ∈ msg.reactions, r.emoji = "📝".data ∧ uid ∈ r.users := by
    simp only [userReactions, List.mem_map, List.mem_filter]
    constructor
    · rintro ⟨r, ⟨hr, hcond⟩, hemoji⟩
      rw [Bool.and_eq_true, decide_eq_true_eq] at hcond
      exact ⟨r, hr, hemoji, hcond.2⟩
    · rintro ⟨r, hr, hemoji, huid⟩
      refine ⟨r, ⟨hr, ?_⟩, hemoji⟩
      rw [Bool.and_eq_true, decide_eq_true_eq]
      refine ⟨?_, huid⟩
      rw [List.any_eq_true]
      refine ⟨("📝".data, "note".data), ?_, ?_⟩
      · rw [List.mem_append]
        exact Or.inl (by simp [ACTION_EMOJIS])
      · rw [hemoji]
        simp
  constructor
  · constructor
    · intro hc
      by_cases hin : "📝".data ∈ userReactions (ACTION_EMOJIS ++ ext) msg uid
      · exact hmem.mp hin
      · rw [chooseAction, if_neg hin] at hc
        exact absurd hc (by decide)
    · intro hex
      rw [chooseAction, if_pos (hmem.mpr hex)]
  · constructor
    · intro hc hex
      rw [chooseAction, if_pos (hmem.mpr hex)] at hc
      exact absurd hc (by decide)
    · intro hnex
      rw [chooseAction, if_neg (fun hin => hnex (hmem.mp hin))]

/-- Witness for claim C6 at a concrete message. -/
theorem chooseAction_spec_witness :
    (chooseAction (ACTION_EMOJIS ++ []) testMessage 7 = "note".data ↔
      ∃ r ∈ testMessage.reactions, r.emoji = "📝".data ∧ 7 ∈ r.users) ∧
    (chooseAction (ACTION_EMOJIS ++ []) testMessage 7 = "daily".data ↔
      ¬∃ r ∈ testMessage.reactions, r.emoji = "📝".data ∧ 7 ∈ r.users) :=
  chooseAction_spec [] testMessage 7

/-- Claim C9: on a message with attachments the daily-path content is the
message text followed by the `Attachments:` block with one bullet per
attachment, and this differs from the `## Attachments` section format that
the new-note path writes for the same message. -/
theorem dailyBaseContent_spec (msg : Message) (h : msg.attachments ≠ []) :
    dailyBaseContent msg = msg.content ++ "\n\nAttachments:\n".data ++
      joinNewline (msg.attachments.map attachmentBullet) ∧
    dailyBaseContent msg ≠ createNoteContent msg := by
  refine ⟨by rw [dailyBaseContent, if_neg h], ?_⟩
  intro heq
  rw [dailyBaseContent, if_neg h, createNoteContent, if_neg h,
    List.append_assoc] at heq
  have h2 := List.append_cancel_left heq
  have e1 : "\n\nAttachments:\n".data ++
      joinNewline (msg.attachments.map attachmentBullet) =
      '\n' :: '\n' :: 'A' :: ("ttachments:\n".data ++
        joinNewline (msg.attachments.map attachmentBullet)) := rfl
  have e2 : "\n\n## Attachments\n".data ++
      (msg.attachments.map fun a => attachmentBullet a ++ "\n".data).foldr
        (fun a b => a ++ b) [] =
      '\n' :: '\n' :: '#' :: ("# Attachments\n".data ++
        (msg.attachments.map fun a => attachmentBullet a ++ "\n".data).foldr
          (fun a b => a ++ b) []) := rfl
  rw [e1, e2] at h2
  have h3 := (List.cons.inj (List.cons.inj h2).2).2
  have h4 := (List.cons.inj h3).1
  exact absurd h4 (by decide)

/-- Witness for claim C9 on a message with one attachment. -/
theorem dailyBaseContent_spec_witness :
    dailyBaseContent ⟨"hello".data, [⟨"a.png".data, "http://x".data⟩], []⟩ =
      "hello".data ++ "\n\nAttachments:\n".data ++
        joinNewline (([⟨"a.png".data, "http://x".data⟩] :
          List Attachment).map attachmentBullet) ∧
    dailyBaseContent ⟨"hello".data, [⟨"a.png".data, "http://x".data⟩], []⟩ ≠
      createNoteContent ⟨"hello".data, [⟨"a.png".data, "http://x".data⟩], []⟩ :=
  dailyBaseContent_spec ⟨"hello".data, [⟨"a.png".data, "http://x".data⟩], []⟩
    (by decide)

theorem exceptTail_triggered (cfg : Config) (env : RawEnv) (pre : List Effect) :
    (exceptTail cfg env pre).triggered = true := by
  rw [exceptTail]
  split_ifs <;> rfl

/-! ### Claim C10: the trigger condition -/

/-- Claim C10: when the gateway fetches succeed, the capture logic runs
exactly when the reactor is not the bot, the channel name matches, and the
added emoji is a custom emoji whose name is the configured Save name.
The catalog is arbitrary (in particular it need not contain a Save entry),
and a non-custom emoji never triggers. -/
theorem capture_trigger_iff (cfg : Config) (env : RawEnv)
    (h1 : env.fetchChannelOk = true) (h2 : env.fetchMessageOk = true) :
    (on_raw_reaction_add cfg env).triggered = true ↔
      env.payloadUserId ≠ cfg.botUserId ∧ env.channelName = cfg.channelName ∧
      env.emojiIsCustom = true ∧ env.emojiName = cfg.saveEmojiName := by
  rw [on_raw_reaction_add]
  rw [h1, h2]
  by_cases hu : env.payloadUserId = cfg.botUserId
  · rw [if_pos hu]
    simp [hu]
  · rw [if_neg hu]
    simp only [Bool.not_true, Bool.false_eq_true, if_false]
    by_cases hch : env.channelName = cfg.channelName
    · rw [if_neg (by rw [hch]; simp : ¬env.channelName ≠ cfg.channelName)]
      by_cases hcu : (env.emojiIsCustom && decide (env.emojiName = cfg.saveEmojiName)) = true
      · rw [if_neg (by rw [hcu]; simp)]
        rw [Bool.and_eq_true, decide_eq_true_eq] at hcu
        simp only [hu, hch, hcu.1, hcu.2, ne_eq, not_false_eq_true, true_and, and_true]
        cases htb : (tryBody cfg env).2 <;> simp [htb, exceptTail_triggered]
      · rw [if_pos (by rw [Bool.eq_false_iff.mpr hcu]; simp)]
        rw [Bool.and_eq_true, decide_eq_true_eq] at hcu
        simp only [HandlerResult.triggered]
        constructor
        · intro hfalse
          exact absurd hfalse (by simp)
        · rintro ⟨-, -, hcust, hname⟩
          exact absurd ⟨hcust, hname⟩ hcu
    · rw [if_pos (by simpa using hch)]
      simp [hch]

/-- Witness for claim C10 at a concrete all-successful environment. -/
theorem capture_trigger_iff_witness :
    (on_raw_reaction_add testConfig allOkRawEnv).triggered = true ↔
      allOkRawEnv.payloadUserId ≠ testConfig.botUserId ∧
      allOkRawEnv.channelName = testConfig.channelName ∧
      allOkRawEnv.emojiIsCustom = true ∧
      allOkRawEnv.emojiName = testConfig.saveEmojiName :=
  capture_trigger_iff testConfig allOkRawEnv rfl rfl

/-! ### Claim C1: exception containment in the orchestrator -/

/-- Counterexample to claim C1 as stated: with every trigger condition
satisfied, an exception raised while fetching the channel escapes the
handler, which terminates with neither the success nor the failure
indicator on the message. -/
theorem orchestrator_counterexample :
    (on_raw_reaction_add testConfig fetchFailRawEnv).escaped = true ∧
    Effect.addReaction ("✅".data) ∉
      (on_raw_reaction_add testConfig fetchFailRawEnv).effects ∧
    Effect.addReaction ("❌".data) ∉
      (on_raw_reaction_add testConfig fetchFailRawEnv).effects ∧
    fetchFailRawEnv.payloadUserId ≠ testConfig.botUserId ∧
    fetchFailRawEnv.channelName = testConfig.channelName ∧
    fetchFailRawEnv.emojiIsCustom = true ∧
    fetchFailRawEnv.emojiName = testConfig.saveEmojiName := by
  exact ⟨by decide, by decide, by decide, by decide, by decide, by decide, by decide⟩

theorem removalLoop_all_ok {ok : Str → Bool} :
    ∀ {ks : List Str}, (∀ k ∈ ks, ok k = true) →
    removalLoop ok ks = (ks.map Effect.removeReaction, false) := by
  intro ks
  induction ks with
  | nil => intro _; rfl
  | cons k ks ih =>
    intro h
    rw [removalLoop, if_pos (h k (List.mem_cons_self k ks))]
    rw [ih fun x hx => h x (List.mem_cons_of_mem k hx)]
    rfl

theorem writePhase_no_add (cfg : Config) (env : RawEnv) (s : Str) :
    Effect.addReaction s ∉ (writePhase cfg env).1 := by
  rw [writePhase]
  split_ifs <;> simp

theorem successTail_eq (cfg : Config) (env : RawEnv) (pre : List Effect)
    (h3 : env.addReactionOk ("✅".data) = true) (h5 : env.statusOk = true)
    (h6 : ∀ k ∈ catalogKeys cfg, env.removeReactionOk k = true) :
    successTail cfg env pre =
      (pre ++ [Effect.addReaction ("✅".data), Effect.setStatus ("default".data)]
        ++ (catalogKeys cfg).map Effect.removeReaction, false) := by
  rw [successTail, h3, h5]
  simp only [Bool.not_true, Bool.false_eq_true, if_false]
  rw [removalLoop_all_ok h6]

theorem exceptTail_eq (cfg : Config) (env : RawEnv) (pre : List Effect)
    (h4 : env.addReactionOk ("❌".data) = true) (h5 : env.statusOk = true)
    (h6 : ∀ k ∈ catalogKeys cfg, env.removeReactionOk k = true) :
    exceptTail cfg env pre =
      ⟨pre ++ [Effect.addReaction ("❌".data), Effect.setStatus ("default".data)]
        ++ (catalogKeys cfg).map Effect.removeReaction, false, true⟩ := by
  rw [exceptTail, h4, h5]
  simp only [Bool.not_true, Bool.false_eq_true, if_false]
  rw [removalLoop_all_ok h6]

theorem tryBody_cases (cfg : Config) (env : RawEnv)
    (h3 : env.addReactionOk ("✅".data) = true)
    (h5 : env.statusOk = true)
    (h6 : ∀ k ∈ catalogKeys cfg, env.removeReactionOk k = true) :
    ((tryBody cfg env).2 = true ∧
      Effect.addReaction ("✅".data) ∉ (tryBody cfg env).1 ∧
      Effect.addReaction ("❌".data) ∉ (tryBody cfg env).1) ∨
    ((tryBody cfg env).2 = false ∧
      Effect.addReaction ("✅".data) ∈ (tryBody cfg env).1 ∧
      Effect.addReaction ("❌".data) ∉ (tryBody cfg env).1 ∧
      ∀ k ∈ catalogKeys cfg, Effect.removeReaction k ∈ (tryBody cfg env).1) := by
  rw [tryBody]
  by_cases huf : env.usersFetchOk = true
  · rw [huf]
    simp only [Bool.not_true, Bool.false_eq_true, if_false]
    by_cases hw : (writePhase cfg env).2 = true
    · rw [if_pos hw]
      exact Or.inl ⟨hw, writePhase_no_add cfg env _, writePhase_no_add cfg env _⟩
    · rw [if_neg hw, successTail_eq cfg env _ h3 h5 h6]
      refine Or.inr ⟨rfl, ?_, ?_, ?_⟩
      · exact List.mem_append_left _
          (List.mem_append_right _ (List.mem_cons_self _ _))
      · intro hmem
        rcases List.mem_append.mp hmem with hmem1 | hmem2
        · rcases List.mem_append.mp hmem1 with hpre | hmid
          · exact writePhase_no_add cfg env _ hpre
          · rcases List.mem_cons.mp hmid with he | he
            · exact absurd he (by decide)
            · rcases List.mem_cons.mp he with he2 | he2
              · exact absurd he2 (by decide)
              · simp at he2
        · rcases List.mem_map.mp hmem2 with ⟨k, _, hek⟩
          exact Effect.noConfusion hek
      · intro k hk
        exact List.mem_append_right _ (List.mem_map_of_mem Effect.removeReaction hk)
  · rw [Bool.eq_false_iff.mpr huf]
    simp only [Bool.not_false, if_true]
    exact Or.inl (by simp)

/-- Claim C1 (amended): exceptions raised inside the processing block —
reaction aggregation, path resolution, writing — are caught: provided the
fetches and the terminal marking/cleanup calls themselves succeed, every
triggering event ends with exactly one of the success or failure
indicators on the message and with the same catalog-reaction cleanup on
both paths, and no exception escapes.  (Exceptions during channel or
message fetching, which happen before the `try` block, escape instead —
see the counterexample.) -/
theorem orchestrator_amended (cfg : Config) (env : RawEnv)
    (h1 : env.fetchChannelOk = true) (h2 : env.fetchMessageOk = true)
    (h3 : env.addReactionOk ("✅".data) = true)
    (h4 : env.addReactionOk ("❌".data) = true)
    (h5 : env.statusOk = true)
    (h6 : ∀ k ∈ catalogKeys cfg, env.removeReactionOk k = true) :
    (on_raw_reaction_add cfg env).escaped = false ∧
    ((on_raw_reaction_add cfg env).triggered = true →
      ((Effect.addReaction ("✅".data) ∈ (on_raw_reaction_add cfg env).effects ∧
        Effect.addReaction ("❌".data) ∉ (on_raw_reaction_add cfg env).effects) ∨
       (Effect.addReaction ("❌".data) ∈ (on_raw_reaction_add cfg env).effects ∧
        Effect.addReaction ("✅".data) ∉ (on_raw_reaction_add cfg env).effects)) ∧
      ∀ k ∈ catalogKeys cfg, Effect.removeReaction k ∈
        (on_raw_reaction_add cfg env).effects) := by
  rw [on_raw_reaction_add, h1, h2]
  simp only [Bool.not_true, Bool.false_eq_true, if_false]
  by_cases hu : env.payloadUserId = cfg.botUserId
  · rw [if_pos hu]
    exact ⟨rfl, by intro h; exact absurd h (by simp)⟩
  · rw [if_neg hu]
    by_cases hch : env.channelName ≠ cfg.channelName
    · rw [if_pos hch]
      exact ⟨rfl, by intro h; exact absurd h (by simp)⟩
    · rw [if_neg hch]
      by_cases hcu : (env.emojiIsCustom && decide (env.emojiName = cfg.saveEmojiName)) = true
      · rw [if_neg (by rw [hcu]; simp)]
        rcases tryBody_cases cfg env h3 h5 h6 with hfail | hok
        · rw [if_neg (by rw [hfail.1]; simp),
            exceptTail_eq cfg env _ h4 h5 h6]
          refine ⟨rfl, fun _ => ⟨Or.inr ⟨?_, ?_⟩, ?_⟩⟩
          · exact List.mem_append_left _
              (List.mem_append_right _ (List.mem_cons_self _ _))
          · intro hmem
            rcases List.mem_append.mp hmem with hmem1 | hmem2
            · rcases List.mem_append.mp hmem1 with hpre | hmid
              · exact hfail.2.1 hpre
              · rcases List.mem_cons.mp hmid with he | he
                · exact absurd he (by decide)
                · rcases List.mem_cons.mp he with he2 | he2
                  · exact absurd he2 (by decide)
                  · simp at he2
            · rcases List.mem_map.mp hmem2 with ⟨k, _, hek⟩
              exact Effect.noConfusion hek
          · intro k hk
            exact List.mem_append_right _
              (List.mem_map_of_mem Effect.removeReaction hk)
        · rw [if_pos (by rw [hok.1]; simp)]
          exact ⟨rfl, fun _ => ⟨Or.inl ⟨hok.2.1, hok.2.2.1⟩, hok.2.2.2⟩⟩
      · rw [if_pos (by rw [Bool.eq_false_iff.mpr hcu]; simp)]
        exact ⟨rfl, by intro h; exact absurd h (by simp)⟩

/-- Witness for the amended claim C1 at a concrete all-successful
environment. -/
theorem orchestrator_amended_witness :
    (on_raw_reaction_add testConfig allOkRawEnv).escaped = false ∧
    ((on_raw_reaction_add testConfig allOkRawEnv).triggered = true →
      ((Effect.addReaction ("✅".data) ∈
          (on_raw_reaction_add testConfig allOkRawEnv).effects ∧
        Effect.addReaction ("❌".data) ∉
          (on_raw_reaction_add testConfig allOkRawEnv).effects) ∨
       (Effect.addReaction ("❌".data) ∈
          (on_raw_reaction_add testConfig allOkRawEnv).effects ∧
        Effect.addReaction ("✅".data) ∉
          (on_raw_reaction_add testConfig allOkRawEnv).effects)) ∧
      ∀ k ∈ catalogKeys testConfig, Effect.removeReaction k ∈
        (on_raw_reaction_add testConfig allOkRawEnv).effects) :=
  orchestrator_amended testConfig allOkRawEnv rfl rfl rfl rfl rfl (by decide)

/-! ### Claim C4: reaction attachment in on_message -/

/-- Counterexample to claim C4 as stated: when adding the first catalog
reaction fails, the loop is aborted — the remaining catalog emoji is never
attached and the exception escapes the handler. -/
theorem on_message_counterexample :
    (on_message testConfig
      ⟨"obsidian".data, false, fun e => !(e = "📅".data : Bool)⟩).2 = true ∧
    Effect.addReaction ("📝".data) ∉
      (on_message testConfig
        ⟨"obsidian".data, false, fun e => !(e = "📅".data : Bool)⟩).1 := by
  exact ⟨by decide, by decide⟩

theorem addLoop_spec (ok : Str → Bool) :
    ∀ ks : List Str,
      addLoop ok ks = ((ks.takeWhile ok).map Effect.addReaction, !ks.all ok) := by
  intro ks
  induction ks with
  | nil => rfl
  | cons k ks ih =>
    by_cases hk : ok k = true
    · rw [addLoop, if_pos hk, ih]
      rw [List.takeWhile_cons, if_pos hk, List.all_cons, hk]
      simp
    · rw [addLoop, if_neg hk, List.takeWhile_cons,
        if_neg hk, List.all_cons, Bool.eq_false_iff.mpr hk]
      simp

/-- Claim C4 (amended): `on_message` attaches the catalog reactions in
catalog order only up to the first failing `add_reaction` call; a failure
aborts the loop (the remaining symbols are not attached) and the exception
escapes the handler. -/
theorem on_message_spec (cfg : Config) (env : MsgEnv)
    (hch : env.channelName = cfg.channelName) (hbot : env.authorIsBot = false) :
    on_message cfg env =
      (((catalogKeys cfg).takeWhile env.addReactionOk).map Effect.addReaction,
       !(catalogKeys cfg).all env.addReactionOk) := by
  rw [on_message, if_pos ⟨hch, hbot⟩]
  exact addLoop_spec env.addReactionOk (catalogKeys cfg)

/-- Witness for the amended claim C4 with a concrete failing call. -/
theorem on_message_spec_witness :
    on_message testConfig
        ⟨"obsidian".data, false, fun e => !(e = "📅".data : Bool)⟩ =
      (((catalogKeys testConfig).takeWhile
          (fun e => !(e = "📅".data : Bool))).map Effect.addReaction,
       !(catalogKeys testConfig).all (fun e => !(e = "📅".data : Bool))) :=
  on_message_spec testConfig
    ⟨"obsidian".data, false, fun e => !(e = "📅".data : Bool)⟩ rfl rfl

end ObsidianDiscord
